import Mathlib

/-!
Verification of the diff-splitting, per-file-diff parsing and pattern-filtering
core of the go-github-diff library (file github_diff.go).

Go strings are modelled as lists of characters (`GoStr`).  The line scanner
(`bufio.Scanner` with `bufio.ScanLines`) is modelled by `goLines`, which splits
on a newline character, drops the empty fragment produced by a trailing
newline, and strips one trailing carriage return from each line (exactly what
`bufio.ScanLines`' `dropCR` does); the model assumes every line fits within
the scanner's default token-size limit, below which the scanner never stops
early.  `strings.Fields` is `goFields`, `strings.TrimSpace` is `trimSpace`,
`strings.Join(_, "\n")` is `nlJoin`, and `strings.HasPrefix s p` is
`p.isPrefixOf s`.

The regular-expression engine (`regexp.Compile` / `MatchString`) is an external
library, not code of this repository; it is abstracted as a `RegexOracle`:
`compile` returns `none` exactly when compilation fails, and otherwise a
matcher `GoStr → Bool` whose value on a string is `MatchString`'s answer,
i.e. whether the string contains a match of the pattern anywhere (Go's
`MatchString` is unanchored).  All definitions that reach the regex engine
are parameterised by the oracle.
-/

namespace GoGithubDiff

/-- Go strings, modelled as lists of characters. -/
abbrev GoStr := List Char

/-- The white-space predicate of Go's `unicode.IsSpace`, used by
`strings.TrimSpace` and `strings.Fields`. -/
def isGoSpace (c : Char) : Bool :=
  c == ' ' || c == '\t' || c == '\n' || c == '\x0B' || c == '\x0C' ||
  c == '\r' || c == '\u0085' || c == '\u00A0' || c == '\u1680' ||
  (decide (0x2000 ≤ c.toNat) && decide (c.toNat ≤ 0x200A)) ||
  c == '\u2028' || c == '\u2029' || c == '\u202F' || c == '\u205F' ||
  c == '\u3000'

/-- The `dropCR` helper of `bufio.ScanLines`: drop one trailing carriage
return, if present. -/
def dropCR (l : GoStr) : GoStr :=
  if l.getLast? = some '\r' then l.dropLast else l

/-- Split a character list at every newline, keeping all fragments (so a
string with `n` newlines yields `n + 1` fragments).  Auxiliary to
`goLines`. -/
def splitNl : List Char → List (List Char)
  | [] => [[]]
  | c :: rest =>
    match splitNl rest with
    | r :: rs => if c = '\n' then [] :: r :: rs else (c :: r) :: rs
    | [] => [[c]]

/-- The token stream of `bufio.Scanner` with `bufio.ScanLines`: no token for
empty input, the fragment after a trailing newline is not a token, and each
token has one trailing carriage return stripped. -/
def goLines (s : GoStr) : List GoStr :=
  if s = [] then []
  else
    (if s.getLast? = some '\n' then (splitNl s).dropLast else splitNl s).map dropCR

/-- `strings.Join(ls, "\n")`: concatenate with a single newline between
consecutive elements. -/
def nlJoin : List GoStr → GoStr
  | [] => []
  | [l] => l
  | l :: l₂ :: rest => l ++ '\n' :: nlJoin (l₂ :: rest)

/-- `strings.TrimSpace`: drop leading and trailing white space. -/
def trimSpace (s : GoStr) : GoStr :=
  ((s.dropWhile isGoSpace).reverse.dropWhile isGoSpace).reverse

/-- Accumulator-passing helper for `goFields`; `acc` is the current field,
reversed. -/
def goFieldsAux : List Char → GoStr → List GoStr
  | [], acc => if acc = [] then [] else [acc.reverse]
  | c :: rest, acc =>
    if isGoSpace c then
      if acc = [] then goFieldsAux rest []
      else acc.reverse :: goFieldsAux rest []
    else goFieldsAux rest (c :: acc)

/-- `strings.Fields`: the maximal runs of non-white-space characters. -/
def goFields (s : GoStr) : List GoStr := goFieldsAux s []

/-- The boundary marker `"diff --git"`. -/
def dGitP : GoStr := "diff --git".toList

/-- The index-line marker `"index "`. -/
def idxP : GoStr := "index ".toList

/-- The `GitDiff` record of github_diff.go. -/
structure GitDiff where
  FilePathOld : GoStr
  FilePathNew : GoStr
  Index : GoStr
  DiffContents : GoStr
deriving DecidableEq, Repr

/-- The two error outcomes of `parseGitDiffFileString`: the Go code returns
`errors.New("invalid file paths")` and `errors.New("invalid git diff
format")`. -/
inductive ParseError where
  | invalidPaths
  | invalidFormat
deriving DecidableEq, Repr

/-- The scanning loop of `parseGitDiffFileString`, carrying the `filePaths`,
`index` and `diff` variables of the Go code. -/
def scanFileDiff : List GoStr → List GoStr → GoStr → List GoStr →
    Except ParseError GitDiff
  | [], filePaths, index, diff =>
    if filePaths.length = 0 ∨ index.length = 0 ∨ diff.length = 0 then
      .error .invalidFormat
    else
      .ok ⟨filePaths.getD 0 [], filePaths.getD 1 [], index, nlJoin diff⟩
  | line :: rest, filePaths, index, diff =>
    if dGitP.isPrefixOf line then
      let fps := (goFields line).drop 2
      if fps.length ≠ 2 then .error .invalidPaths
      else scanFileDiff rest fps index diff
    else if idxP.isPrefixOf line then
      scanFileDiff rest filePaths (trimSpace (line.drop 6)) diff
    else
      scanFileDiff rest filePaths index (diff ++ [line])

/-- `parseGitDiffFileString` of github_diff.go: scan the lines of a
single-file diff, take the last `diff --git` line's two trailing fields as the
paths (failing at once if the count differs from two), the last `index ` line's
trimmed remainder as the index, every other line as body, then validate. -/
def parseGitDiffFileString (input : GoStr) : Except ParseError GitDiff :=
  scanFileDiff (goLines input) [] [] []

/-- The accumulation loop of `splitDiffIntoFiles`, carrying the `files` slice
and the `curFile` string builder of the Go code. -/
def splitLoop : List GoStr → List GoStr → GoStr → List GoStr
  | [], files, cur =>
    if 0 < cur.length then files ++ [trimSpace cur] else files
  | line :: rest, files, cur =>
    if dGitP.isPrefixOf line then
      if 0 < cur.length then
        splitLoop rest (files ++ [trimSpace cur]) (line ++ ['\n'])
      else
        splitLoop rest files (line ++ ['\n'])
    else
      splitLoop rest files (cur ++ line ++ ['\n'])

/-- `splitDiffIntoFiles` of github_diff.go: split a multi-file diff into
per-file segments at `diff --git` boundary lines, trimming each emitted
segment. -/
def splitDiffIntoFiles (diff : GoStr) : List GoStr :=
  splitLoop (goLines diff) [] []

/-- Abstraction of the Go standard-library regex engine: `compile` returns
`none` exactly when `regexp.Compile` fails, and otherwise the (unanchored)
`MatchString` function of the compiled pattern, which reports whether its
argument contains a match of the pattern. -/
structure RegexOracle where
  compile : GoStr → Option (GoStr → Bool)

/-- `matchFile` of github_diff.go: the empty pattern never matches (and is not
an error); otherwise compile the pattern (`none` models the Go error return)
and apply the compiled matcher to the file path. -/
def matchFile (O : RegexOracle) (pattern file : GoStr) : Option Bool :=
  if pattern = [] then some false
  else
    match O.compile pattern with
    | none => none
    | some rx => some (rx file)

/-- `matchIgnoreFilter` of github_diff.go: walk the pattern list in order;
a compile error aborts the walk with `false`, a match returns `true`, and an
exhausted list returns `false`. -/
def matchIgnoreFilter (O : RegexOracle) (file : GitDiff) : List GoStr → Bool
  | [] => false
  | pattern :: rest =>
    match matchFile O pattern file.FilePathNew with
    | none => false
    | some true => true
    | some false => matchIgnoreFilter O file rest

/-- The accumulation loop of `ParseGitDiff`, carrying the `filteredList`
slice of the Go code. -/
def parseLoop (O : RegexOracle) (ignoreList : List GoStr) :
    List GoStr → List GitDiff → List GitDiff
  | [], acc => acc
  | file :: rest, acc =>
    match parseGitDiffFileString file with
    | .error _ => parseLoop O ignoreList rest acc
    | .ok gitDiff =>
      if matchIgnoreFilter O gitDiff ignoreList then
        parseLoop O ignoreList rest acc
      else
        parseLoop O ignoreList rest (acc ++ [gitDiff])

/-- `ParseGitDiff` of github_diff.go: segment the diff, parse each segment,
silently drop parse failures and filtered records, keep the rest in order. -/
def ParseGitDiff (O : RegexOracle) (diff : GoStr) (ignoreList : List GoStr) :
    List GitDiff :=
  parseLoop O ignoreList (splitDiffIntoFiles diff) []

/-- A body line of a segment: neither a `diff --git` line nor an `index `
line. -/
def isBodyLine (l : GoStr) : Bool :=
  !(dGitP.isPrefixOf l) && !(idxP.isPrefixOf l)

/-- The text accumulated by the segmenter for a run of lines: each line
followed by one newline (`curFile.WriteString(line + "\n")`). -/
def accLines (c : List GoStr) : GoStr :=
  (c.map (fun l => l ++ ['\n'])).flatten

/-- Modelled from the spec (§4.1, testable property §8.1): the chunks of a
line list whose head is a boundary line — each chunk is a boundary line
together with the non-boundary lines that follow it.  Used to state the
refinement theorem for `splitDiffIntoFiles`. -/
def chunkLines : List GoStr → List (List GoStr)
  | [] => []
  | l :: rest =>
    (l :: rest.takeWhile (fun x => !(dGitP.isPrefixOf x))) ::
      chunkLines (rest.dropWhile (fun x => !(dGitP.isPrefixOf x)))
termination_by ls => ls.length
decreasing_by
  simp only [List.length_cons]
  exact Nat.lt_succ_of_le ((List.dropWhile_sublist _).length_le)

/-- The final value of the parser's `filePaths` variable after scanning the
given lines, starting from `fps`: the last `diff --git` line wins. -/
def lastPaths : List GoStr → List GoStr → List GoStr
  | [], fps => fps
  | l :: rest, fps =>
    lastPaths rest (if dGitP.isPrefixOf l then (goFields l).drop 2 else fps)

/-- The final value of the parser's `index` variable after scanning the given
lines, starting from `idx`: the last `index ` line wins. -/
def lastIdx : List GoStr → GoStr → GoStr
  | [], idx => idx
  | l :: rest, idx =>
    lastIdx rest (if idxP.isPrefixOf l then trimSpace (l.drop 6) else idx)

/-- A naive substring matcher: does `pat` occur contiguously in the
argument?  Used to build concrete oracles for witnesses. -/
def substrMatch (pat : GoStr) : GoStr → Bool
  | [] => pat.isPrefixOf []
  | s@(_ :: rest) => pat.isPrefixOf s || substrMatch pat rest

/-- A concrete regex oracle for witnesses: the single pattern `"["` fails to
compile (as it does under `regexp.Compile`), every other pattern compiles to
a literal substring matcher. -/
def testOracle : RegexOracle :=
  ⟨fun p => if p = "[".toList then none else some (substrMatch p)⟩

/-! ### General lemmas about the string primitives -/

lemma splitNl_ne_nil (s : List Char) : splitNl s ≠ [] := by
  cases s with
  | nil => simp [splitNl]
  | cons c rest =>
    simp only [splitNl]
    split
    · split <;> simp
    · simp

lemma splitNl_cons_ex (rest : List Char) :
    ∃ r rs, splitNl rest = r :: rs := by
  cases h : splitNl rest with
  | nil => exact absurd h (splitNl_ne_nil rest)
  | cons r rs => exact ⟨r, rs, rfl⟩

lemma mem_of_mem_splitNl {s f : List Char} {c : Char}
    (hf : f ∈ splitNl s) (hc : c ∈ f) : c ∈ s := by
  induction s generalizing f with
  | nil =>
    simp only [splitNl, List.mem_singleton] at hf
    subst hf
    simp at hc
  | cons a rest ih =>
    obtain ⟨r, rs, h⟩ := splitNl_cons_ex rest
    simp only [splitNl, h] at hf
    by_cases ha : a = '\n'
    · rw [if_pos ha, ← h] at hf
      rcases List.mem_cons.mp hf with rfl | hf
      · simp at hc
      · exact List.mem_cons_of_mem a (ih hf hc)
    · rw [if_neg ha] at hf
      rcases List.mem_cons.mp hf with rfl | hf
      · rcases List.mem_cons.mp hc with rfl | hcr
        · exact List.mem_cons_self _ _
        · have hr : c ∈ rest := ih (by rw [h]; exact List.mem_cons_self r rs) hcr
          exact List.mem_cons_of_mem a hr
      · have hr : c ∈ rest := ih (by rw [h]; exact List.mem_cons_of_mem r hf) hc
        exact List.mem_cons_of_mem a hr

lemma nlJoin_splitNl (s : List Char) : nlJoin (splitNl s) = s := by
  induction s with
  | nil => rfl
  | cons c rest ih =>
    obtain ⟨r, rs, h⟩ := splitNl_cons_ex rest
    simp only [splitNl, h]
    by_cases hc : c = '\n'
    · subst hc
      simp only [if_pos rfl, nlJoin, List.nil_append]
      rw [← h, ih]
    · rw [if_neg hc]
      cases rs with
      | nil =>
        simp only [nlJoin]
        rw [h] at ih
        simp only [nlJoin] at ih
        rw [ih]
      | cons r₂ rs₂ =>
        simp only [nlJoin, List.cons_append]
        rw [h] at ih
        simp only [nlJoin] at ih
        rw [ih]

lemma splitNl_snoc_nl (s : List Char) :
    splitNl (s ++ ['\n']) = splitNl s ++ [[]] := by
  induction s with
  | nil => rfl
  | cons c rest ih =>
    obtain ⟨r, rs, h⟩ := splitNl_cons_ex rest
    rw [List.cons_append]
    simp only [splitNl]
    rw [ih, h, List.cons_append]
    by_cases hc : c = '\n' <;> simp [hc]

lemma accLines_eq_nlJoin {ls : List GoStr} (h : ls ≠ []) :
    accLines ls = nlJoin ls ++ ['\n'] := by
  induction ls with
  | nil => exact absurd rfl h
  | cons l t ih =>
    cases t with
    | nil => simp [accLines, nlJoin]
    | cons l₂ t₂ =>
      simp only [accLines, List.map_cons, List.flatten_cons] at ih ⊢
      rw [ih (by simp), nlJoin, List.append_assoc]
      simp

lemma dropCR_eq_self {l : List Char} (h : '\r' ∉ l) : dropCR l = l := by
  unfold dropCR
  split
  · rename_i hl
    obtain ⟨ys, rfl⟩ := List.getLast?_eq_some_iff.mp hl
    simp at h
  · rfl

lemma map_dropCR_splitNl {s t : List Char} (hcr : '\r' ∉ s)
    (ht : ∀ c ∈ t, c ∈ s) : (splitNl t).map dropCR = splitNl t := by
  have : ∀ f ∈ splitNl t, dropCR f = f := by
    intro f hf
    refine dropCR_eq_self (fun hc => hcr (ht _ (mem_of_mem_splitNl hf hc)))
  calc (splitNl t).map dropCR = (splitNl t).map id := List.map_congr_left this
  _ = splitNl t := List.map_id _

/-- Reconstruction: for carriage-return-free non-empty input, gluing the
scanner's lines back together (each with a trailing newline) recovers the
input, up to the optional final newline. -/
lemma accLines_goLines {s : List Char} (hcr : '\r' ∉ s) (hne : s ≠ []) :
    accLines (goLines s) =
      if s.getLast? = some '\n' then s else s ++ ['\n'] := by
  by_cases hnl : s.getLast? = some '\n'
  · obtain ⟨ys, rfl⟩ := List.getLast?_eq_some_iff.mp hnl
    rw [if_pos hnl]
    simp only [goLines, if_neg hne, if_pos hnl, splitNl_snoc_nl,
      List.dropLast_concat]
    rw [map_dropCR_splitNl (t := ys) hcr (fun c hc => by simp [hc])]
    rw [accLines_eq_nlJoin (splitNl_ne_nil ys), nlJoin_splitNl]
  · rw [if_neg hnl]
    simp only [goLines, if_neg hne, if_neg hnl]
    rw [map_dropCR_splitNl (t := s) hcr (fun c hc => hc)]
    rw [accLines_eq_nlJoin (splitNl_ne_nil s), nlJoin_splitNl]

lemma trim_append_space {s : List Char} {c : Char} (h : isGoSpace c = true) :
    trimSpace (s ++ [c]) = trimSpace s := by
  unfold trimSpace
  rw [List.dropWhile_append]
  by_cases hd : (s.dropWhile isGoSpace).isEmpty
  · rw [if_pos hd]
    rw [List.isEmpty_iff] at hd
    rw [hd]
    simp [List.dropWhile_cons, h]
  · rw [if_neg hd, List.reverse_append]
    simp only [List.reverse_cons, List.reverse_nil, List.nil_append,
      List.singleton_append, List.dropWhile_cons, h, if_true]

lemma trim_idem (s : List Char) : trimSpace (trimSpace s) = trimSpace s := by
  unfold trimSpace
  have hv : (((s.dropWhile isGoSpace).reverse.dropWhile
      isGoSpace).reverse).dropWhile isGoSpace =
      ((s.dropWhile isGoSpace).reverse.dropWhile isGoSpace).reverse := by
    cases hvr : ((s.dropWhile isGoSpace).reverse.dropWhile
        isGoSpace).reverse with
    | nil => simp
    | cons a t =>
      have hsplit := List.takeWhile_append_dropWhile isGoSpace
        (s.dropWhile isGoSpace).reverse
      have hu : s.dropWhile isGoSpace =
          ((s.dropWhile isGoSpace).reverse.dropWhile isGoSpace).reverse ++
          ((s.dropWhile isGoSpace).reverse.takeWhile isGoSpace).reverse := by
        conv_lhs => rw [← List.reverse_reverse (s.dropWhile isGoSpace),
          ← hsplit]
        rw [List.reverse_append]
      rw [hvr] at hu
      have hne : s.dropWhile isGoSpace ≠ [] := by
        rw [hu]; simp
      have hhead : isGoSpace ((s.dropWhile isGoSpace).head hne) = false :=
        List.head_dropWhile_not isGoSpace s hne
      have hha : (s.dropWhile isGoSpace).head hne = a := by
        rw [List.head_eq_iff_head?_eq_some, hu]
        simp
      rw [hha] at hhead
      rw [List.dropWhile_cons, hhead]
      simp
  rw [hv, List.reverse_reverse, List.dropWhile_idempotent]

lemma trim_keeps_dGitP {s : List Char} (h : dGitP.isPrefixOf s = true) :
    dGitP.isPrefixOf (trimSpace s) = true := by
  rw [List.isPrefixOf_iff_prefix] at h ⊢
  obtain ⟨w, rfl⟩ := h
  unfold trimSpace
  have h1 : (dGitP ++ w).dropWhile isGoSpace = dGitP ++ w := by
    rw [show dGitP ++ w =
      'd' :: ("iff --git".toList ++ w) from rfl]
    rw [List.dropWhile_cons, if_neg (by decide)]
  rw [h1, List.reverse_append, List.dropWhile_append]
  by_cases h2 : (w.reverse.dropWhile isGoSpace).isEmpty
  · rw [if_pos h2]
    have h3 : dGitP.reverse.dropWhile isGoSpace = dGitP.reverse := by decide
    rw [h3, List.reverse_reverse]
  · rw [if_neg h2, List.reverse_append, List.reverse_reverse]
    exact List.prefix_append _ _

/-! ### The orchestration pipeline (claim C1) -/

lemma parseLoop_eq (O : RegexOracle) (ign : List GoStr) (fs : List GoStr) :
    ∀ acc : List GitDiff,
      parseLoop O ign fs acc =
        acc ++ (fs.filterMap
          (fun s => (parseGitDiffFileString s).toOption)).filter
          (fun g => !matchIgnoreFilter O g ign) := by
  induction fs with
  | nil => intro acc; simp [parseLoop]
  | cons f rest ih =>
    intro acc
    cases hp : parseGitDiffFileString f with
    | error e =>
      have ht : (parseGitDiffFileString f).toOption = none := by
        rw [hp]; rfl
      rw [List.filterMap_cons_none (f := fun s => (parseGitDiffFileString s).toOption) ht]
      simp only [parseLoop, hp]
      exact ih acc
    | ok g =>
      have ht : (parseGitDiffFileString f).toOption = some g := by
        rw [hp]; rfl
      rw [List.filterMap_cons_some (f := fun s => (parseGitDiffFileString s).toOption) ht, List.filter_cons]
      simp only [parseLoop, hp]
      by_cases hm : matchIgnoreFilter O g ign = true
      · rw [if_pos hm, hm, if_neg (by decide)]
        exact ih acc
      · have hm2 : matchIgnoreFilter O g ign = false := by
          revert hm; cases matchIgnoreFilter O g ign <;> simp
        rw [if_neg hm, hm2, if_pos (by decide), ih (acc ++ [g])]
        simp

/-- Claim C1: `ParseGitDiff` returns exactly the records obtained by
segmenting the input with `splitDiffIntoFiles`, parsing each segment with
`parseGitDiffFileString`, dropping segments whose parse fails, and dropping
parsed records that `matchIgnoreFilter` marks ignored, in original segment
order.  The function is total (it returns a plain list, never a failure), so
when no segment survives the right-hand side — and hence the result — is
the empty list. -/
theorem claim_C1 (O : RegexOracle) (diff : GoStr)
    (ignorePatterns : List GoStr) :
    ParseGitDiff O diff ignorePatterns =
      ((splitDiffIntoFiles diff).filterMap
        (fun s => (parseGitDiffFileString s).toOption)).filter
        (fun g => !matchIgnoreFilter O g ignorePatterns) := by
  unfold ParseGitDiff
  rw [parseLoop_eq]
  simp

/-! ### Body round-trip (claim C2) -/

lemma scan_ok_body (ls : List GoStr) :
    ∀ (fps : List GoStr) (idx : GoStr) (df : List GoStr) (g : GitDiff),
      scanFileDiff ls fps idx df = .ok g →
      g.DiffContents = nlJoin (df ++ ls.filter isBodyLine) := by
  induction ls with
  | nil =>
    intro fps idx df g h
    simp only [scanFileDiff] at h
    split at h
    · exact absurd h (by simp)
    · cases h
      simp
  | cons l rest ih =>
    intro fps idx df g h
    simp only [scanFileDiff] at h
    split at h
    · rename_i hd
      split at h
      · exact absurd h (by simp)
      · have hb : isBodyLine l = false := by
          simp [isBodyLine, hd]
        rw [List.filter_cons, hb, if_neg (by decide)]
        exact ih _ _ _ _ h
    · rename_i hd
      split at h
      · rename_i hi
        have hb : isBodyLine l = false := by
          simp [isBodyLine, hi]
        rw [List.filter_cons, hb, if_neg (by decide)]
        exact ih _ _ _ _ h
      · rename_i hi
        have hd2 : dGitP.isPrefixOf l = false := by
          cases hq : dGitP.isPrefixOf l
          · rfl
          · exact absurd hq hd
        have hi2 : idxP.isPrefixOf l = false := by
          cases hq : idxP.isPrefixOf l
          · rfl
          · exact absurd hq hi
        have hb : isBodyLine l = true := by
          simp [isBodyLine, hd2, hi2]
        rw [List.filter_cons, hb, if_pos rfl, List.append_cons]
        exact ih _ _ _ _ h

/-- Claim C2: whenever `parseGitDiffFileString` succeeds, the record's body
equals the segment's lines with every `diff --git`-prefixed line and every
`index `-prefixed line removed, the remaining lines kept in order and joined
with a single newline. -/
theorem claim_C2 (input : GoStr) (g : GitDiff)
    (h : parseGitDiffFileString input = .ok g) :
    g.DiffContents = nlJoin ((goLines input).filter isBodyLine) := by
  have hb := scan_ok_body (goLines input) [] [] [] g h
  simpa using hb

/-- Witness for claim C2 at a concrete valid single-file segment. -/
theorem claim_C2_witness :
    parseGitDiffFileString ("diff --git a/a b/b\nindex 1..2\n+x".toList) =
      .ok ⟨"a/a".toList, "b/b".toList, "1..2".toList, "+x".toList⟩ ∧
    ("+x".toList : GoStr) =
      nlJoin ((goLines
        ("diff --git a/a b/b\nindex 1..2\n+x".toList)).filter isBodyLine) :=
  ⟨rfl,
    claim_C2 ("diff --git a/a b/b\nindex 1..2\n+x".toList)
      ⟨"a/a".toList, "b/b".toList, "1..2".toList, "+x".toList⟩ rfl⟩

/-! ### Error characterization (claim C3) -/

lemma dGit_idx_disjoint {l : GoStr} (h1 : dGitP.isPrefixOf l = true) :
    idxP.isPrefixOf l = false := by
  rw [List.isPrefixOf_iff_prefix] at h1
  obtain ⟨w, rfl⟩ := h1
  cases hq : idxP.isPrefixOf (dGitP ++ w)
  · rfl
  · exfalso
    rw [List.isPrefixOf_iff_prefix] at hq
    obtain ⟨u, hu⟩ := hq
    have h0 : (idxP ++ u).head? = (dGitP ++ w).head? := by rw [hu]
    rw [show idxP = 'i' :: "ndex ".toList from rfl,
      show dGitP = 'd' :: "iff --git".toList from rfl] at h0
    simp only [List.cons_append, List.head?_cons, Option.some.injEq] at h0
    exact absurd h0 (by decide)

lemma bool_eq_false_of_not {b : Bool} (h : ¬b = true) : b = false := by
  cases hq : b
  · rfl
  · exact absurd hq h

lemma scan_invalidPaths_iff (ls : List GoStr) :
    ∀ fps idx df,
      scanFileDiff ls fps idx df = .error .invalidPaths ↔
        ∃ l ∈ ls, dGitP.isPrefixOf l = true ∧
          ((goFields l).drop 2).length ≠ 2 := by
  induction ls with
  | nil =>
    intro fps idx df
    simp only [scanFileDiff]
    constructor
    · intro h
      split at h
      · simp at h
      · simp at h
    · rintro ⟨l, hl, -⟩
      simp at hl
  | cons l rest ih =>
    intro fps idx df
    simp only [scanFileDiff]
    by_cases hd : dGitP.isPrefixOf l = true
    · rw [if_pos hd]
      by_cases hlen : ((goFields l).drop 2).length ≠ 2
      · rw [if_pos hlen]
        constructor
        · intro _
          exact ⟨l, List.mem_cons_self l rest, hd, hlen⟩
        · intro _
          rfl
      · rw [if_neg hlen, ih]
        push_neg at hlen
        constructor
        · rintro ⟨l', hl', h1, h2⟩
          exact ⟨l', List.mem_cons_of_mem l hl', h1, h2⟩
        · rintro ⟨l', hl', h1, h2⟩
          rcases List.mem_cons.mp hl' with rfl | hl'
          · exact absurd hlen h2
          · exact ⟨l', hl', h1, h2⟩
    · rw [if_neg hd]
      have hstep : ∀ idx' df',
          scanFileDiff rest fps idx' df' = .error .invalidPaths ↔
            ∃ l' ∈ l :: rest, dGitP.isPrefixOf l' = true ∧
              ((goFields l').drop 2).length ≠ 2 := by
        intro idx' df'
        rw [ih]
        constructor
        · rintro ⟨l', hl', h1, h2⟩
          exact ⟨l', List.mem_cons_of_mem l hl', h1, h2⟩
        · rintro ⟨l', hl', h1, h2⟩
          rcases List.mem_cons.mp hl' with rfl | hl'
          · exact absurd h1 hd
          · exact ⟨l', hl', h1, h2⟩
      by_cases hi : idxP.isPrefixOf l = true
      · rw [if_pos hi]
        exact hstep _ _
      · rw [if_neg hi]
        exact hstep _ _

lemma scan_invalidFormat_iff (ls : List GoStr) :
    ∀ fps idx df,
      scanFileDiff ls fps idx df = .error .invalidFormat ↔
        (∀ l ∈ ls, dGitP.isPrefixOf l = true →
            ((goFields l).drop 2).length = 2) ∧
          (lastPaths ls fps = [] ∨ lastIdx ls idx = [] ∨
            df ++ ls.filter isBodyLine = []) := by
  induction ls with
  | nil =>
    intro fps idx df
    simp only [scanFileDiff, lastPaths, lastIdx, List.filter_nil,
      List.append_nil]
    constructor
    · intro h
      split at h
      · rename_i hc
        refine ⟨by simp, ?_⟩
        rcases hc with hc | hc | hc
        · exact Or.inl (List.length_eq_zero.mp hc)
        · exact Or.inr (Or.inl (List.length_eq_zero.mp hc))
        · exact Or.inr (Or.inr (List.length_eq_zero.mp hc))
      · simp at h
    · rintro ⟨-, hor⟩
      have hc : fps.length = 0 ∨ idx.length = 0 ∨ df.length = 0 := by
        rcases hor with h | h | h
        · exact Or.inl (by simp [h])
        · exact Or.inr (Or.inl (by simp [h]))
        · exact Or.inr (Or.inr (by simp [h]))
      rw [if_pos hc]
  | cons l rest ih =>
    intro fps idx df
    simp only [scanFileDiff]
    by_cases hd : dGitP.isPrefixOf l = true
    · rw [if_pos hd]
      have hi : idxP.isPrefixOf l = false := dGit_idx_disjoint hd
      have hb : isBodyLine l = false := by simp [isBodyLine, hd]
      by_cases hlen : ((goFields l).drop 2).length ≠ 2
      · rw [if_pos hlen]
        constructor
        · intro h
          simp at h
        · rintro ⟨hall, -⟩
          exact absurd (hall l (List.mem_cons_self l rest) hd) hlen
      · rw [if_neg hlen, ih]
        push_neg at hlen
        simp only [lastPaths, lastIdx, if_pos hd, hi, List.filter_cons, hb,
          if_neg (by decide : ¬(false = true))]
        constructor
        · rintro ⟨hall, hor⟩
          refine ⟨?_, hor⟩
          intro l' hl' hdl'
          rcases List.mem_cons.mp hl' with rfl | hl'
          · exact hlen
          · exact hall l' hl' hdl'
        · rintro ⟨hall, hor⟩
          exact ⟨fun l' hl' hdl' =>
            hall l' (List.mem_cons_of_mem l hl') hdl', hor⟩
    · rw [if_neg hd]
      have hd' : dGitP.isPrefixOf l = false := bool_eq_false_of_not hd
      have hstep : ∀ idx' df',
          (scanFileDiff rest fps idx' df' = .error .invalidFormat ↔
            (∀ l' ∈ l :: rest, dGitP.isPrefixOf l' = true →
                ((goFields l').drop 2).length = 2) ∧
              (lastPaths rest fps = [] ∨ lastIdx rest idx' = [] ∨
                df' ++ rest.filter isBodyLine = [])) := by
        intro idx' df'
        rw [ih]
        constructor
        · rintro ⟨hall, hor⟩
          refine ⟨?_, hor⟩
          intro l' hl' hdl'
          rcases List.mem_cons.mp hl' with rfl | hl'
          · exact absurd hdl' hd
          · exact hall l' hl' hdl'
        · rintro ⟨hall, hor⟩
          exact ⟨fun l' hl' hdl' =>
            hall l' (List.mem_cons_of_mem l hl') hdl', hor⟩
      by_cases hi : idxP.isPrefixOf l = true
      · rw [if_pos hi]
        have hb : isBodyLine l = false := by simp [isBodyLine, hi]
        simp only [lastPaths, lastIdx, hd', if_pos hi, List.filter_cons, hb,
          if_neg (by decide : ¬(false = true)),
          if_neg (by decide : ¬(false = true))]
        exact hstep _ _
      · rw [if_neg hi]
        have hi' : idxP.isPrefixOf l = false := bool_eq_false_of_not hi
        have hb : isBodyLine l = true := by simp [isBodyLine, hd', hi']
        have e1 : lastPaths (l :: rest) fps = lastPaths rest fps := by
          simp [lastPaths, hd']
        have e2 : lastIdx (l :: rest) idx = lastIdx rest idx := by
          simp [lastIdx, hi']
        have e3 : (l :: rest).filter isBodyLine =
            l :: rest.filter isBodyLine := by
          simp [List.filter_cons, hb]
        have h4 := hstep idx (df ++ [l])
        rw [← List.append_cons] at h4
        rw [e1, e2, e3]
        exact h4

/-- Claim C3: `parseGitDiffFileString` fails with `invalidPaths` exactly when
some `diff --git` line's trailing token count differs from two (the scan
returns at the first such line, so this error takes priority over every other
condition); it fails with `invalidFormat` exactly when no such line exists and
the final path pair is absent, the final index value is empty, or no body line
was collected (hence the empty string fails with `invalidFormat`); otherwise
it succeeds. -/
theorem claim_C3 (input : GoStr) :
    (parseGitDiffFileString input = .error .invalidPaths ↔
      ∃ l ∈ goLines input, dGitP.isPrefixOf l = true ∧
        ((goFields l).drop 2).length ≠ 2) ∧
    (parseGitDiffFileString input = .error .invalidFormat ↔
      (∀ l ∈ goLines input, dGitP.isPrefixOf l = true →
          ((goFields l).drop 2).length = 2) ∧
        (lastPaths (goLines input) [] = [] ∨
          lastIdx (goLines input) [] = [] ∨
          (goLines input).filter isBodyLine = [])) ∧
    parseGitDiffFileString [] = .error .invalidFormat ∧
    ((∃ g, parseGitDiffFileString input = .ok g) ↔
      parseGitDiffFileString input ≠ .error .invalidPaths ∧
      parseGitDiffFileString input ≠ .error .invalidFormat) := by
  refine ⟨?_, ?_, by rfl, ?_⟩
  · have h := scan_invalidPaths_iff (goLines input) [] [] []
    simpa [parseGitDiffFileString] using h
  · have h := scan_invalidFormat_iff (goLines input) [] [] []
    simpa [parseGitDiffFileString] using h
  · cases hr : parseGitDiffFileString input with
    | ok g => simp [hr]
    | error e =>
      cases e
      · simp
      · simp

/-! ### Field extraction bounds (claims C10 and C5) -/

lemma goFieldsAux_len_pos (s : List Char) :
    ∀ acc : GoStr, acc ≠ [] → 1 ≤ (goFieldsAux s acc).length := by
  induction s with
  | nil =>
    intro acc h
    simp [goFieldsAux, h]
  | cons c rest ih =>
    intro acc h
    simp only [goFieldsAux]
    by_cases hsp : isGoSpace c = true
    · rw [if_pos hsp, if_neg h]
      simp
    · rw [if_neg hsp]
      exact ih (c :: acc) (by simp)

lemma goFieldsAux_cons_nonspace {c : Char} (rest : List Char) (acc : GoStr)
    (h : isGoSpace c = false) :
    goFieldsAux (c :: rest) acc = goFieldsAux rest (c :: acc) := by
  simp [goFieldsAux, h]

lemma goFieldsAux_cons_space {c : Char} (rest : List Char) (acc : GoStr)
    (h : isGoSpace c = true) (hne : acc ≠ []) :
    goFieldsAux (c :: rest) acc = acc.reverse :: goFieldsAux rest [] := by
  simp [goFieldsAux, h, hne]

lemma goFields_dGit_two {l : GoStr} (h : dGitP.isPrefixOf l = true) :
    2 ≤ (goFields l).length := by
  rw [List.isPrefixOf_iff_prefix] at h
  obtain ⟨t, rfl⟩ := h
  show 2 ≤ (goFieldsAux (dGitP ++ t) []).length
  rw [show dGitP ++ t =
    'd' :: 'i' :: 'f' :: 'f' :: ' ' :: '-' :: '-' :: 'g' :: 'i' :: 't' :: t
    from rfl]
  rw [goFieldsAux_cons_nonspace _ _ (by decide),
    goFieldsAux_cons_nonspace _ _ (by decide),
    goFieldsAux_cons_nonspace _ _ (by decide),
    goFieldsAux_cons_nonspace _ _ (by decide),
    goFieldsAux_cons_space _ _ (by decide) (by simp),
    goFieldsAux_cons_nonspace _ _ (by decide),
    goFieldsAux_cons_nonspace _ _ (by decide),
    goFieldsAux_cons_nonspace _ _ (by decide),
    goFieldsAux_cons_nonspace _ _ (by decide),
    goFieldsAux_cons_nonspace _ _ (by decide)]
  simp only [List.length_cons]
  have hpos := goFieldsAux_len_pos t
    ['t', 'i', 'g', '-', '-'] (by simp)
  omega

lemma goFieldsAux_mem_ne_nil (s : List Char) :
    ∀ (acc : GoStr), ∀ f ∈ goFieldsAux s acc, f ≠ [] := by
  induction s with
  | nil =>
    intro acc f hf
    by_cases h : acc = []
    · simp [goFieldsAux, h] at hf
    · simp only [goFieldsAux, if_neg h, List.mem_singleton] at hf
      subst hf
      simpa using h
  | cons c rest ih =>
    intro acc f hf
    by_cases hsp : isGoSpace c = true
    · by_cases h : acc = []
      · rw [goFieldsAux] at hf
        rw [if_pos hsp, if_pos h] at hf
        exact ih [] f hf
      · rw [goFieldsAux] at hf
        rw [if_pos hsp, if_neg h] at hf
        rcases List.mem_cons.mp hf with rfl | hf
        · simpa using h
        · exact ih [] f hf
    · rw [goFieldsAux] at hf
      rw [if_neg hsp] at hf
      exact ih (c :: acc) f hf

/-- Claim C10: the two raw accesses of `parseGitDiffFileString` are always in
bounds — a line with the `diff --git` prefix always splits into at least two
fields (so the slice `[2:]`, modelled as `List.drop 2`, is in range), and a
line with the `index ` prefix always has length at least six (so the slice
`[6:]`, modelled as `List.drop 6`, is in range).  Totality of the parser
itself holds by construction of the model. -/
theorem claim_C10 (l : GoStr) :
    (dGitP.isPrefixOf l = true → 2 ≤ (goFields l).length) ∧
    (idxP.isPrefixOf l = true → 6 ≤ l.length) := by
  constructor
  · exact fun h => goFields_dGit_two h
  · intro h
    rw [List.isPrefixOf_iff_prefix] at h
    obtain ⟨t, rfl⟩ := h
    rw [List.length_append]
    have h6 : idxP.length = 6 := by decide
    omega

/-- Witness for claim C10 at concrete `diff --git` and `index ` lines. -/
theorem claim_C10_witness :
    2 ≤ (goFields ("diff --git a/x b/x".toList)).length ∧
    6 ≤ ("index 1..2".toList : GoStr).length :=
  ⟨(claim_C10 ("diff --git a/x b/x".toList)).1 (by decide),
   (claim_C10 ("index 1..2".toList)).2 (by decide)⟩

lemma scan_ok_fields (ls : List GoStr) :
    ∀ fps idx df g,
      (fps = [] ∨ (fps.length = 2 ∧ ∀ f ∈ fps, f ≠ [])) →
      scanFileDiff ls fps idx df = .ok g →
      g.FilePathOld ≠ [] ∧ g.FilePathNew ≠ [] ∧ g.Index ≠ [] ∧
        df ++ ls.filter isBodyLine ≠ [] := by
  induction ls with
  | nil =>
    intro fps idx df g hinv h
    simp only [scanFileDiff] at h
    split at h
    · simp at h
    · rename_i hc
      push_neg at hc
      obtain ⟨h1, h2, h3⟩ := hc
      cases h
      rcases hinv with rfl | ⟨hlen, hne⟩
      · simp at h1
      · obtain ⟨a, b, rfl⟩ := List.length_eq_two.mp hlen
        refine ⟨by simpa using hne a (by simp), by simpa using hne b (by simp),
          ?_, ?_⟩
        · intro hidx
          dsimp only at hidx
          exact h2 (by simp [hidx])
        · intro hdf
          simp only [List.filter_nil, List.append_nil] at hdf
          exact h3 (by simp [hdf])
  | cons l rest ih =>
    intro fps idx df g hinv h
    simp only [scanFileDiff] at h
    split at h
    · rename_i hd
      split at h
      · simp at h
      · rename_i hlen
        push_neg at hlen
        have hb : isBodyLine l = false := by simp [isBodyLine, hd]
        have hinv' : ((goFields l).drop 2 = []) ∨
            (((goFields l).drop 2).length = 2 ∧
              ∀ f ∈ (goFields l).drop 2, f ≠ []) :=
          Or.inr ⟨hlen, fun f hf =>
            goFieldsAux_mem_ne_nil l [] f (List.mem_of_mem_drop hf)⟩
        have hrec := ih _ _ _ _ hinv' h
        refine ⟨hrec.1, hrec.2.1, hrec.2.2.1, ?_⟩
        rw [List.filter_cons, hb, if_neg (by decide)]
        exact hrec.2.2.2
    · rename_i hd
      split at h
      · rename_i hi
        have hb : isBodyLine l = false := by simp [isBodyLine, hi]
        have hrec := ih _ _ _ _ hinv h
        refine ⟨hrec.1, hrec.2.1, hrec.2.2.1, ?_⟩
        rw [List.filter_cons, hb, if_neg (by decide)]
        exact hrec.2.2.2
      · rename_i hi
        have hd' : dGitP.isPrefixOf l = false := bool_eq_false_of_not hd
        have hi' : idxP.isPrefixOf l = false := bool_eq_false_of_not hi
        have hb : isBodyLine l = true := by simp [isBodyLine, hd', hi']
        have hrec := ih _ _ _ _ hinv h
        refine ⟨hrec.1, hrec.2.1, hrec.2.2.1, ?_⟩
        rw [List.filter_cons, hb, if_pos rfl]
        simp

/-- Counterexample to claim C5 as stated: the input whose only body line is
empty parses successfully, yet the record's joined body string is the empty
string (the Go code only checks that the body line collection is non-empty,
not that the joined string is). -/
theorem claim_C5_counterexample :
    parseGitDiffFileString ("diff --git a/x b/x\n\nindex 1..2".toList) =
      .ok ⟨"a/x".toList, "b/x".toList, "1..2".toList, []⟩ := rfl

/-- Claim C5 (amended): every record returned by a successful
`parseGitDiffFileString` call has a non-empty `FilePathOld`, a non-empty
`FilePathNew` and a non-empty `Index`, and at least one body line was
collected (a file-diff with zero body lines is rejected); however the joined
body string itself may be empty when every collected body line is empty. -/
theorem claim_C5 (input : GoStr) (g : GitDiff)
    (h : parseGitDiffFileString input = .ok g) :
    g.FilePathOld ≠ [] ∧ g.FilePathNew ≠ [] ∧ g.Index ≠ [] ∧
      (goLines input).filter isBodyLine ≠ [] := by
  have hs := scan_ok_fields (goLines input) [] [] [] g (Or.inl rfl) h
  simpa using hs

/-- Witness for claim C5 at a concrete valid single-file segment. -/
theorem claim_C5_witness :
    ("a/m".toList : GoStr) ≠ [] ∧ ("b/m".toList : GoStr) ≠ [] ∧
    ("3..4".toList : GoStr) ≠ [] ∧
    (goLines ("diff --git a/m b/m\nindex 3..4\n+z".toList)).filter
      isBodyLine ≠ [] :=
  claim_C5 ("diff --git a/m b/m\nindex 3..4\n+z".toList)
    ⟨"a/m".toList, "b/m".toList, "3..4".toList, "+z".toList⟩ rfl

/-! ### The ignore filter (claims C4 and C8) -/

/-- Claim C4: when a pattern whose compilation fails is reached before any
pattern has matched, `matchIgnoreFilter` returns `false` at once — the
remaining patterns `ps₂` are never evaluated (the result is `false` for every
`ps₂`, even one containing a matching pattern), the compile failure is not
surfaced (the function returns a plain boolean), and in particular an invalid
pattern alone (`ps₁ = ps₂ = []`) can never cause a record to be excluded. -/
theorem claim_C4 (O : RegexOracle) (g : GitDiff) (ps₁ ps₂ : List GoStr)
    (p : GoStr) (hp : p ≠ []) (hc : O.compile p = none)
    (h₁ : ∀ q ∈ ps₁, matchFile O q g.FilePathNew = some false) :
    matchIgnoreFilter O g (ps₁ ++ p :: ps₂) = false := by
  induction ps₁ with
  | nil =>
    simp only [List.nil_append, matchIgnoreFilter]
    have hm : matchFile O p g.FilePathNew = none := by
      simp [matchFile, hp, hc]
    rw [hm]
  | cons q qs ih =>
    simp only [List.cons_append, matchIgnoreFilter]
    rw [h₁ q (List.mem_cons_self q qs)]
    exact ih (fun x hx => h₁ x (List.mem_cons_of_mem q hx))

/-- Witness for claim C4: with the concrete oracle, the non-compiling pattern
`"["` placed before the pattern `"f"` (which would match the new path) still
yields `false` — the failure aborts the walk. -/
theorem claim_C4_witness :
    matchIgnoreFilter testOracle
      ⟨"a/f.go".toList, "b/f.go".toList, "i".toList, "x".toList⟩
      ("[".toList :: ["f".toList]) = false :=
  claim_C4 testOracle
    ⟨"a/f.go".toList, "b/f.go".toList, "i".toList, "x".toList⟩
    [] ["f".toList] ("[".toList) (by decide) rfl (by simp)

/-- Claim C8: `matchIgnoreFilter` evaluates patterns in list order against
the record's `FilePathNew` only; the empty pattern never matches and never
aborts the walk; a non-empty pattern that compiles is tested by applying the
compiled matcher (Go's unanchored `MatchString`) to the new path; the result
is `true` exactly when some pattern matches and every earlier pattern
evaluated to a clean non-match; the empty pattern list always yields
`false`. -/
theorem claim_C8 (O : RegexOracle) (g : GitDiff) (ps : List GoStr) :
    matchIgnoreFilter O g [] = false ∧
    (∀ f, matchFile O [] f = some false) ∧
    (∀ p f rx, p ≠ [] → O.compile p = some rx →
      matchFile O p f = some (rx f)) ∧
    (∀ g₂ : GitDiff, g₂.FilePathNew = g.FilePathNew →
      matchIgnoreFilter O g₂ ps = matchIgnoreFilter O g ps) ∧
    (matchIgnoreFilter O g ps = true ↔
      ∃ ps₁ p ps₂, ps = ps₁ ++ p :: ps₂ ∧
        matchFile O p g.FilePathNew = some true ∧
        ∀ q ∈ ps₁, matchFile O q g.FilePathNew = some false) := by
  refine ⟨rfl, fun f => rfl, ?_, ?_, ?_⟩
  · intro p f rx hp hcomp
    simp [matchFile, hp, hcomp]
  · intro g₂ he
    induction ps with
    | nil => rfl
    | cons p rest ih =>
      simp only [matchIgnoreFilter, he]
      cases hm : matchFile O p g.FilePathNew with
      | none => rfl
      | some b =>
        cases b
        · exact ih
        · rfl
  · induction ps with
    | nil =>
      simp only [matchIgnoreFilter]
      constructor
      · intro h
        simp at h
      · rintro ⟨ps₁, q, ps₂, hEq, -, -⟩
        cases ps₁ <;> simp at hEq
    | cons p rest ih =>
      cases hm : matchFile O p g.FilePathNew with
      | none =>
        simp only [matchIgnoreFilter, hm]
        constructor
        · intro h
          simp at h
        · rintro ⟨ps₁, q, ps₂, hEq, hq, hall⟩
          cases ps₁ with
          | nil =>
            simp only [List.nil_append, List.cons.injEq] at hEq
            obtain ⟨rfl, rfl⟩ := hEq
            rw [hm] at hq
            cases hq
          | cons q₁ ps₁' =>
            simp only [List.cons_append, List.cons.injEq] at hEq
            obtain ⟨rfl, rfl⟩ := hEq
            have := hall p (List.mem_cons_self p ps₁')
            rw [hm] at this
            cases this
      | some b =>
        cases b
        · simp only [matchIgnoreFilter, hm]
          rw [ih]
          constructor
          · rintro ⟨ps₁, q, ps₂, rfl, hq, hall⟩
            refine ⟨p :: ps₁, q, ps₂, rfl, hq, ?_⟩
            intro x hx
            rcases List.mem_cons.mp hx with rfl | hx
            · exact hm
            · exact hall x hx
          · rintro ⟨ps₁, q, ps₂, hEq, hq, hall⟩
            cases ps₁ with
            | nil =>
              simp only [List.nil_append, List.cons.injEq] at hEq
              obtain ⟨rfl, rfl⟩ := hEq
              rw [hm] at hq
              cases hq
            | cons q₁ ps₁' =>
              simp only [List.cons_append, List.cons.injEq] at hEq
              obtain ⟨rfl, rfl⟩ := hEq
              exact ⟨ps₁', q, ps₂, rfl, hq,
                fun x hx => hall x (List.mem_cons_of_mem _ hx)⟩
        · simp only [matchIgnoreFilter, hm]
          constructor
          · intro _
            exact ⟨[], p, rest, rfl, hm, by simp⟩
          · intro _
            trivial

/-- Witness for claim C8: with the concrete oracle, the pattern list
`["z", "go"]` marks a record with new path `b/f.go` as ignored — the first
pattern is a clean non-match and the second matches. -/
theorem claim_C8_witness :
    matchIgnoreFilter testOracle
      ⟨"a/f.go".toList, "b/f.go".toList, "i".toList, "x".toList⟩
      ["z".toList, "go".toList] = true :=
  (claim_C8 testOracle
    ⟨"a/f.go".toList, "b/f.go".toList, "i".toList, "x".toList⟩
    ["z".toList, "go".toList]).2.2.2.2.mpr
    ⟨["z".toList], "go".toList, [], rfl, by decide, by decide⟩

/-! ### The segmenter (claims C6, C7, C9) -/

lemma accLines_cons (l : GoStr) (rest : List GoStr) :
    accLines (l :: rest) = (l ++ ['\n']) ++ accLines rest := by
  simp [accLines]

lemma goLines_ne_nil {s : GoStr} (h : s ≠ []) : goLines s ≠ [] := by
  simp only [goLines, if_neg h]
  by_cases hnl : s.getLast? = some '\n'
  · obtain ⟨ys, rfl⟩ := List.getLast?_eq_some_iff.mp hnl
    rw [if_pos hnl, splitNl_snoc_nl, List.dropLast_concat]
    intro hmap
    exact splitNl_ne_nil ys (List.map_eq_nil_iff.mp hmap)
  · rw [if_neg hnl]
    intro hmap
    exact splitNl_ne_nil s (List.map_eq_nil_iff.mp hmap)

lemma cur_len_pos {cur : GoStr} (h : cur ≠ []) : 0 < cur.length := by
  cases cur
  · exact absurd rfl h
  · simp

lemma splitLoop_no_boundary (ls : List GoStr)
    (hnb : ∀ l ∈ ls, dGitP.isPrefixOf l = false) :
    ∀ files cur, cur ≠ [] →
      splitLoop ls files cur =
        files ++ [trimSpace (cur ++ accLines ls)] := by
  induction ls with
  | nil =>
    intro files cur hc
    simp only [splitLoop, accLines, List.map_nil, List.flatten_nil,
      List.append_nil]
    rw [if_pos (cur_len_pos hc)]
  | cons l rest ih =>
    intro files cur hc
    have hl : dGitP.isPrefixOf l = false := hnb l (List.mem_cons_self l rest)
    simp only [splitLoop]
    rw [if_neg (by simp [hl])]
    rw [ih (fun x hx => hnb x (List.mem_cons_of_mem l hx)) files
      (cur ++ l ++ ['\n']) (by simp)]
    rw [accLines_cons]
    simp [List.append_assoc]

/-- Counterexample to claim C7 as stated, in two parts.  First, on the
whitespace-only input `"   "` (which contains no boundary line and trims to
empty) the segmenter returns the one-element sequence `[""]`, not the empty
sequence.  Second, on the carriage-return input `"a\r\nb"` (no boundary line,
trims to itself, non-empty) the segmenter returns the reconstruction with the
`\r` stripped by the line scanner, which differs from the trimmed input. -/
theorem claim_C7_counterexample :
    ((∀ l ∈ goLines ("   ".toList), dGitP.isPrefixOf l = false) ∧
      trimSpace ("   ".toList) = [] ∧
      splitDiffIntoFiles ("   ".toList) ≠ []) ∧
    ((∀ l ∈ goLines ("a\r\nb".toList), dGitP.isPrefixOf l = false) ∧
      trimSpace ("a\r\nb".toList) ≠ [] ∧
      splitDiffIntoFiles ("a\r\nb".toList) ≠
        [trimSpace ("a\r\nb".toList)]) := by
  decide

/-- Claim C7 (amended): the segmenter returns the empty sequence on the empty
input; and on every non-empty carriage-return-free input none of whose lines
begins with `diff --git` it returns the one-element sequence holding the
whole input trimmed — in particular a whitespace-only input yields `[""]`
(one element holding the empty string), not the empty sequence, and an input
containing `\r\n` line breaks yields the scanner's `\r`-stripped
reconstruction rather than the literal input. -/
theorem claim_C7 :
    splitDiffIntoFiles [] = [] ∧
    ∀ input : GoStr, '\r' ∉ input →
      (∀ l ∈ goLines input, dGitP.isPrefixOf l = false) →
      input ≠ [] → splitDiffIntoFiles input = [trimSpace input] := by
  refine ⟨rfl, ?_⟩
  intro input hcr hnb hne
  unfold splitDiffIntoFiles
  obtain ⟨l, rest, hls⟩ : ∃ l rest, goLines input = l :: rest := by
    cases h : goLines input with
    | nil => exact absurd h (goLines_ne_nil hne)
    | cons l rest => exact ⟨l, rest, rfl⟩
  rw [hls]
  have hl : dGitP.isPrefixOf l = false :=
    hnb l (by rw [hls]; exact List.mem_cons_self l rest)
  simp only [splitLoop]
  rw [if_neg (by simp [hl]), List.nil_append]
  rw [splitLoop_no_boundary rest
    (fun x hx => hnb x (by rw [hls]; exact List.mem_cons_of_mem l hx))
    [] (l ++ ['\n']) (by simp)]
  rw [List.nil_append]
  have hacc : (l ++ ['\n']) ++ accLines rest = accLines (goLines input) := by
    rw [hls, accLines_cons]
  rw [hacc, accLines_goLines hcr hne]
  by_cases hnl : input.getLast? = some '\n'
  · rw [if_pos hnl]
  · rw [if_neg hnl, trim_append_space (by decide)]

/-- Witness for claim C7 at a concrete boundary-free input. -/
theorem claim_C7_witness :
    splitDiffIntoFiles ("hello\nworld".toList) =
      [trimSpace ("hello\nworld".toList)] :=
  claim_C7.2 ("hello\nworld".toList) (by decide) (by decide) (by decide)

/-- Counterexample to claim C9 as stated: a single-file diff with `\r\n` line
breaks — the first line is a boundary line and no other line is, yet the
segmenter's output differs from the trimmed input because the line scanner
strips the carriage returns. -/
theorem claim_C9_counterexample :
    dGitP.isPrefixOf
        ((goLines ("diff --git a b\r\n-x".toList)).headI) = true ∧
    (∀ l ∈ (goLines ("diff --git a b\r\n-x".toList)).tail,
      dGitP.isPrefixOf l = false) ∧
    splitDiffIntoFiles ("diff --git a b\r\n-x".toList) ≠
      [trimSpace ("diff --git a b\r\n-x".toList)] := by
  decide

/-- Claim C9 (amended): on every carriage-return-free input whose first line
begins with `diff --git` and that contains no other such boundary line, the
segmenter returns a one-element sequence whose sole element is the input
trimmed of leading and trailing whitespace. -/
theorem claim_C9 (input : GoStr) (hcr : '\r' ∉ input)
    (hd : dGitP.isPrefixOf (goLines input).headI = true)
    (hnb : ∀ l ∈ (goLines input).tail, dGitP.isPrefixOf l = false) :
    splitDiffIntoFiles input = [trimSpace input] := by
  have hne : input ≠ [] := by
    intro h
    rw [h] at hd
    exact absurd hd (by decide)
  unfold splitDiffIntoFiles
  obtain ⟨l, rest, hls⟩ : ∃ l rest, goLines input = l :: rest := by
    cases h : goLines input with
    | nil => exact absurd h (goLines_ne_nil hne)
    | cons l rest => exact ⟨l, rest, rfl⟩
  rw [hls]
  rw [hls] at hd hnb
  simp only [List.headI] at hd
  simp only [List.tail_cons] at hnb
  simp only [splitLoop]
  rw [if_pos hd, if_neg (by simp)]
  rw [splitLoop_no_boundary rest hnb [] (l ++ ['\n']) (by simp)]
  rw [List.nil_append]
  have hacc : (l ++ ['\n']) ++ accLines rest = accLines (goLines input) := by
    rw [hls, accLines_cons]
  rw [hacc, accLines_goLines hcr hne]
  by_cases hnl : input.getLast? = some '\n'
  · rw [if_pos hnl]
  · rw [if_neg hnl, trim_append_space (by decide)]

/-- Witness for claim C9 at a concrete single-file diff. -/
theorem claim_C9_witness :
    splitDiffIntoFiles ("diff --git a/q b/q\nindex 9..8\n-y".toList) =
      [trimSpace ("diff --git a/q b/q\nindex 9..8\n-y".toList)] :=
  claim_C9 ("diff --git a/q b/q\nindex 9..8\n-y".toList)
    (by decide) (by decide) (by decide)

lemma dropWhile_head_false {α : Type} {p : α → Bool} {ls : List α}
    {r : α} {rs : List α} (h : ls.dropWhile p = r :: rs) : p r = false := by
  induction ls with
  | nil => simp at h
  | cons a t ih =>
    rw [List.dropWhile_cons] at h
    by_cases hp : p a = true
    · rw [if_pos hp] at h
      exact ih h
    · rw [if_neg hp] at h
      obtain ⟨rfl, -⟩ := List.cons.injEq .. |>.mp h
      exact bool_eq_false_of_not hp

lemma splitLoop_chunks (ls : List GoStr) :
    ∀ files cur, cur ≠ [] →
      splitLoop ls files cur =
        files ++ [trimSpace (cur ++
          accLines (ls.takeWhile (fun x => !(dGitP.isPrefixOf x))))] ++
          (chunkLines (ls.dropWhile (fun x => !(dGitP.isPrefixOf x)))).map
            (fun c => trimSpace (accLines c)) := by
  induction ls with
  | nil =>
    intro files cur hc
    simp only [splitLoop, List.takeWhile_nil, List.dropWhile_nil, chunkLines,
      List.map_nil, List.append_nil, accLines, List.map_nil,
      List.flatten_nil]
    rw [if_pos (cur_len_pos hc)]
  | cons l rest ih =>
    intro files cur hc
    by_cases hd : dGitP.isPrefixOf l = true
    · simp only [splitLoop]
      rw [if_pos hd, if_pos (cur_len_pos hc)]
      rw [ih (files ++ [trimSpace cur]) (l ++ ['\n']) (by simp)]
      rw [List.takeWhile_cons, List.dropWhile_cons]
      rw [hd]
      simp only [Bool.not_true, Bool.false_eq_true, if_false]
      rw [chunkLines, List.map_cons, accLines_cons]
      simp [accLines, List.append_assoc]
    · have hd2 : dGitP.isPrefixOf l = false := bool_eq_false_of_not hd
      simp only [splitLoop]
      rw [if_neg (by simp [hd2])]
      rw [ih files (cur ++ l ++ ['\n']) (by simp)]
      rw [List.takeWhile_cons, List.dropWhile_cons]
      rw [hd2]
      simp only [Bool.not_false, if_true]
      rw [accLines_cons]
      simp [List.append_assoc]

lemma chunkLines_length (n : Nat) :
    ∀ ls : List GoStr, ls.length ≤ n →
      (ls = [] ∨ dGitP.isPrefixOf ls.headI = true) →
      (chunkLines ls).length =
        ls.countP (fun x => dGitP.isPrefixOf x) := by
  induction n with
  | zero =>
    intro ls h hb
    have : ls = [] := List.length_eq_zero.mp (Nat.le_zero.mp h)
    subst this
    simp [chunkLines]
  | succ n ih =>
    intro ls h hb
    cases ls with
    | nil => simp [chunkLines]
    | cons l rest =>
      rcases hb with h0 | hb
      · simp at h0
      simp only [List.headI] at hb
      rw [chunkLines]
      rw [List.length_cons]
      have hsub : (rest.dropWhile (fun x => !(dGitP.isPrefixOf x))).length ≤
          n := by
        have h2 : rest.length ≤ n := by
          simp only [List.length_cons] at h
          omega
        exact le_trans ((List.dropWhile_sublist _).length_le) h2
      have hb2 : rest.dropWhile (fun x => !(dGitP.isPrefixOf x)) = [] ∨
          dGitP.isPrefixOf
            (rest.dropWhile (fun x => !(dGitP.isPrefixOf x))).headI =
            true := by
        cases hq : rest.dropWhile (fun x => !(dGitP.isPrefixOf x)) with
        | nil => exact Or.inl rfl
        | cons r rs =>
          refine Or.inr ?_
          have hr := dropWhile_head_false hq
          simp only [List.headI]
          revert hr
          cases dGitP.isPrefixOf r <;> simp
      rw [ih _ hsub hb2]
      rw [List.countP_cons_of_pos (fun x => dGitP.isPrefixOf x) rest
        (by simpa using hb)]
      conv_rhs => rw [← List.takeWhile_append_dropWhile
        (fun x => !(dGitP.isPrefixOf x)) rest]
      rw [List.countP_append]
      have h0 : (rest.takeWhile
          (fun x => !(dGitP.isPrefixOf x))).countP
          (fun x => dGitP.isPrefixOf x) = 0 := by
        rw [List.countP_eq_zero]
        intro a ha
        have hp := List.mem_takeWhile_imp ha
        revert hp
        cases dGitP.isPrefixOf a <;> simp
      omega

lemma chunkLines_shape (n : Nat) :
    ∀ ls : List GoStr, ls.length ≤ n →
      (ls = [] ∨ dGitP.isPrefixOf ls.headI = true) →
      ∀ c ∈ chunkLines ls, ∃ l body, c = l :: body ∧
        dGitP.isPrefixOf l = true := by
  induction n with
  | zero =>
    intro ls h hb c hc
    have : ls = [] := List.length_eq_zero.mp (Nat.le_zero.mp h)
    subst this
    simp [chunkLines] at hc
  | succ n ih =>
    intro ls h hb c hc
    cases ls with
    | nil => simp [chunkLines] at hc
    | cons l rest =>
      rcases hb with h0 | hb
      · simp at h0
      simp only [List.headI] at hb
      rw [chunkLines] at hc
      rcases List.mem_cons.mp hc with rfl | hc
      · exact ⟨l, _, rfl, hb⟩
      · have hsub : (rest.dropWhile
            (fun x => !(dGitP.isPrefixOf x))).length ≤ n := by
          have h2 : rest.length ≤ n := by
            simp only [List.length_cons] at h
            omega
          exact le_trans ((List.dropWhile_sublist _).length_le) h2
        have hb2 : rest.dropWhile (fun x => !(dGitP.isPrefixOf x)) = [] ∨
            dGitP.isPrefixOf
              (rest.dropWhile (fun x => !(dGitP.isPrefixOf x))).headI =
              true := by
          cases hq : rest.dropWhile (fun x => !(dGitP.isPrefixOf x)) with
          | nil => exact Or.inl rfl
          | cons r rs =>
            refine Or.inr ?_
            have hr := dropWhile_head_false hq
            simp only [List.headI]
            revert hr
            cases dGitP.isPrefixOf r <;> simp
        exact ih _ hsub hb2 c hc

/-- Claim C6: when the first line of the input is a `diff --git` boundary
line, the segmenter's output is exactly the boundary-delimited chunks of the
line list, in order, each glued back together and trimmed (`chunkLines` is
the chunking written from the spec); consequently the output has exactly one
segment per boundary line (consecutive boundary lines included), each output
segment starts with `diff --git` and is trimmed of leading and trailing
whitespace.  The segmenter is total by construction (it never fails). -/
theorem claim_C6 (input : GoStr)
    (h1 : goLines input ≠ [])
    (h2 : dGitP.isPrefixOf (goLines input).headI = true) :
    splitDiffIntoFiles input =
      (chunkLines (goLines input)).map (fun c => trimSpace (accLines c)) ∧
    (splitDiffIntoFiles input).length =
      (goLines input).countP (fun l => dGitP.isPrefixOf l) ∧
    ∀ s ∈ splitDiffIntoFiles input,
      dGitP.isPrefixOf s = true ∧ trimSpace s = s := by
  obtain ⟨l, rest, hls⟩ : ∃ l rest, goLines input = l :: rest := by
    cases h : goLines input with
    | nil => exact absurd h h1
    | cons l rest => exact ⟨l, rest, rfl⟩
  rw [hls] at h2
  simp only [List.headI] at h2
  have hrefine : splitDiffIntoFiles input =
      (chunkLines (goLines input)).map (fun c => trimSpace (accLines c)) := by
    unfold splitDiffIntoFiles
    rw [hls]
    simp only [splitLoop]
    rw [if_pos h2, if_neg (by simp)]
    rw [splitLoop_chunks rest [] (l ++ ['\n']) (by simp)]
    rw [chunkLines]
    simp only [List.map_cons, List.nil_append]
    rw [show accLines (l :: List.takeWhile (fun x => !(dGitP.isPrefixOf x))
      rest) = (l ++ ['\n']) ++ accLines (List.takeWhile
      (fun x => !(dGitP.isPrefixOf x)) rest) from accLines_cons _ _]
    rfl
  refine ⟨hrefine, ?_, ?_⟩
  · rw [hrefine, List.length_map]
    have := chunkLines_length (goLines input).length (goLines input)
      le_rfl (Or.inr (by rw [hls]; simpa using h2))
    exact this
  · intro s hs
    rw [hrefine] at hs
    obtain ⟨c, hc, rfl⟩ := List.mem_map.mp hs
    obtain ⟨l2, body, rfl, hl2⟩ := chunkLines_shape (goLines input).length
      (goLines input) le_rfl (Or.inr (by rw [hls]; simpa using h2)) c hc
    constructor
    · apply trim_keeps_dGitP
      rw [List.isPrefixOf_iff_prefix] at hl2 ⊢
      rw [accLines_cons, List.append_assoc]
      exact hl2.trans (List.prefix_append _ _)
    · exact trim_idem _

/-- Witness for claim C6 at a concrete two-file diff with an extra
consecutive boundary line. -/
theorem claim_C6_witness :
    splitDiffIntoFiles
        ("diff --git a/1 b/1\n-x\ndiff --git a/2 b/2\ndiff --git a/3 b/3\n+y".toList) =
      (chunkLines (goLines
        ("diff --git a/1 b/1\n-x\ndiff --git a/2 b/2\ndiff --git a/3 b/3\n+y".toList))).map
        (fun c => trimSpace (accLines c)) ∧
    (splitDiffIntoFiles
        ("diff --git a/1 b/1\n-x\ndiff --git a/2 b/2\ndiff --git a/3 b/3\n+y".toList)).length =
      (goLines
        ("diff --git a/1 b/1\n-x\ndiff --git a/2 b/2\ndiff --git a/3 b/3\n+y".toList)).countP
        (fun l => dGitP.isPrefixOf l) ∧
    ∀ s ∈ splitDiffIntoFiles
        ("diff --git a/1 b/1\n-x\ndiff --git a/2 b/2\ndiff --git a/3 b/3\n+y".toList),
      dGitP.isPrefixOf s = true ∧ trimSpace s = s :=
  claim_C6
    ("diff --git a/1 b/1\n-x\ndiff --git a/2 b/2\ndiff --git a/3 b/3\n+y".toList)
    (by decide) (by decide)

/-- Witness for claim C3: a concrete segment whose `diff --git` line has a
single trailing token fails with `invalidPaths`, by the characterization. -/
theorem claim_C3_witness :
    parseGitDiffFileString ("diff --git a/only\nindex 1..2\n+x".toList) =
      .error .invalidPaths :=
  (claim_C3 ("diff --git a/only\nindex 1..2\n+x".toList)).1.mpr
    ⟨"diff --git a/only".toList, by decide, by decide, by decide⟩

end GoGithubDiff
